import Mathlib

set_option maxHeartbeats 1000000

/-!
Shallow embedding of the GWD image codec from `Gwd2Png.py` (decoder) and
`png2gwd.py` (encoder).

Python byte streams are `List Nat` (one entry per byte); exceptions are an
explicit `PyErr` sum (`EOFError`, numpy `IndexError`, `UnicodeDecodeError`,
`ValueError`).  Loops whose bound is not structural carry an explicit fuel
argument; the fuel chosen at every call site is provably sufficient (the
`.fuel` outcome is unreachable there), so the functions agree with the
Python loops.
-/

inductive PyErr where
  | eof
  | index
  | unicode
  | valueError
  | fuel
  deriving DecidableEq, Repr

/-! ## BitStream (Gwd2Png.py, class BitStream) -/

structure BitStream where
  bytes : List Nat
  buffer : Nat
  bufferSize : Nat
  deriving DecidableEq, Repr

def BitStream.totalBits (s : BitStream) : Nat := s.bytes.length * 8 + s.bufferSize

/-- Refill loop of `get_bits`: `while buffer_size < num_bits: read one byte`. -/
def refill_aux (n : Nat) : List Nat → Nat → Nat → Except PyErr (List Nat × Nat × Nat)
  | [], buffer, size =>
    if size < n then .error .eof else .ok ([], buffer, size)
  | b :: rest, buffer, size =>
    if size < n then refill_aux n rest (buffer * 256 + b) (size + 8)
    else .ok (b :: rest, buffer, size)

/-- `BitStream.get_bits`: refill, take the top `n` bits, mask the buffer. -/
def get_bits (s : BitStream) (n : Nat) : Except PyErr (Nat × BitStream) :=
  match refill_aux n s.bytes s.buffer s.bufferSize with
  | .error e => .error e
  | .ok (bytes, buffer, size) =>
    .ok (buffer / 2 ^ (size - n), ⟨bytes, buffer % 2 ^ (size - n), size - n⟩)

/-- Unary-prefix loop of `get_count`: read bits until a `1` appears (`k` counts
the bits examined), then read `k` suffix bits; value is `suffix + 2^k - 2`.
Fuel bounds the loop; one bit is consumed per iteration, so
`totalBits + 1` fuel is enough (`get_count_loop_no_fuel`). -/
def get_count_loop : Nat → BitStream → Nat → Except PyErr (Nat × BitStream)
  | 0, _, _ => .error .fuel
  | fuel + 1, s, k =>
    match get_bits s 1 with
    | .error e => .error e
    | .ok (b, s1) =>
      if b = 0 then get_count_loop fuel s1 (k + 1)
      else
        match get_bits s1 k with
        | .error e => .error e
        | .ok (suffix, s2) => .ok (suffix + (2 ^ k - 2), s2)

/-- `get_count` from Gwd2Png.py. -/
def get_count (s : BitStream) : Except PyErr (Nat × BitStream) :=
  get_count_loop (s.totalBits + 1) s 1

/-! ## Delta predictor (Gwd2Png.py DELTA_TABLE, png2gwd.py encode_delta) -/

/-- Entry `DELTA_TABLE[j][p]` of the precomputed table: the mirrored inverse
delta rule.  `j` is the encoded symbol, `p` the previous pixel.  In the even
branch `2 * m ≥ j`, hence `m ≥ j / 2` and the natural subtraction is exact. -/
def delta_table (j p : Nat) : Nat :=
  let m := if p < 128 then p else 255 - p
  let v := if 2 * m < j then j
           else if j % 2 = 1 then m + (j + 1) / 2
           else m - j / 2
  if p < 128 then v else 255 - v

/-- `encode_delta` from png2gwd.py.  Note the source reassigns `prev` to its
mirrored value before the final `prev < 128` test, so the final test always
sees the mirrored value (which is `< 128`). -/
def encode_delta (curr prev : Nat) : Nat :=
  let m := if prev < 128 then prev else 255 - prev
  let v := if 2 * m < curr then curr
           else if curr % 2 = 1 then m + (curr + 1) / 2
           else m - curr / 2
  if m < 128 then v else 255 - v

/-! ## Scanline decode (Gwd2Png.py fill_line) -/

/-- Literal-run body: `for _ in range(count): line[dst] = get_bits(nbits); dst += 1`.
Writing past the end of the numpy array raises `IndexError`; stores are
`uint8` (mod 256). -/
def literal_loop : Nat → BitStream → Nat → Nat → Nat → List Nat →
    Except PyErr (List Nat × BitStream)
  | 0, s, _, _, _, line => .ok (line, s)
  | count + 1, s, nbits, pos, width, line =>
    if pos < width then
      match get_bits s nbits with
      | .error e => .error e
      | .ok (v, s1) => literal_loop count s1 nbits (pos + 1) width (line.set pos (v % 256))
    else .error .index

/-- Token loop of `fill_line`: `while dst < width` read a 3-bit width code and
a count; width code `0` is a zero run, otherwise a literal run.  Every
iteration advances `dst` by `count ≥ 1`, so `width + 1` fuel is enough
(`fill_line_loop_no_fuel`).  The `if length == -1` branch in the source is dead
code (`get_bits` never returns `-1`) and is omitted. -/
def fill_line_loop : Nat → BitStream → Nat → Nat → List Nat →
    Except PyErr (List Nat × BitStream)
  | 0, _, _, _, _ => .error .fuel
  | fuel + 1, s, width, dst, line =>
    if dst < width then
      match get_bits s 3 with
      | .error e => .error e
      | .ok (len, s1) =>
        match get_count s1 with
        | .error e => .error e
        | .ok (cnt, s2) =>
          if len ≠ 0 then
            match literal_loop (cnt + 1) s2 (len + 1) dst width line with
            | .error e => .error e
            | .ok (line1, s3) => fill_line_loop fuel s3 width (dst + (cnt + 1)) line1
          else fill_line_loop fuel s2 width (dst + (cnt + 1)) line
    else .ok (line, s)

/-- Delta post-pass of `fill_line`: `for i in 1..width: line[i] =
DELTA_TABLE[line[i]][line[i-1]]`, using the already-updated left neighbour. -/
def delta_pass_aux (prev : Nat) : List Nat → List Nat
  | [] => []
  | x :: xs => delta_table x prev :: delta_pass_aux (delta_table x prev) xs

def delta_pass : List Nat → List Nat
  | [] => []
  | x :: xs => x :: delta_pass_aux x xs

/-- `fill_line` from Gwd2Png.py. -/
def fill_line (s : BitStream) (width : Nat) : Except PyErr (List Nat × BitStream) :=
  match fill_line_loop (width + 1) s width 0 (List.replicate width 0) with
  | .error e => .error e
  | .ok (line, s1) => .ok (delta_pass line, s1)

/-! ## Header (Gwd2Png.py read_metadata, png2gwd.py write_metadata) -/

structure GwdMetaData where
  width : Nat
  height : Nat
  bpp : Nat
  dataSize : Nat
  deriving DecidableEq, Repr

/-- `read_metadata`: read 12 bytes (fewer available → `None`, the catch-all
arm); decode bytes 4..6 as ASCII (a byte ≥ 128 raises `UnicodeDecodeError`);
compare with `"GWD"` (mismatch → `None`); otherwise unpack width/height
big-endian (format `>H`), `bpp` from byte 11, `data_size` little-endian (format `<I`)
from bytes 0..3.  `G = 71`, `W = 87`, `D = 68`. -/
def read_metadata (input : List Nat) : Except PyErr (Option GwdMetaData) :=
  match input with
  | b0 :: b1 :: b2 :: b3 :: b4 :: b5 :: b6 :: b7 :: b8 :: b9 :: b10 :: b11 :: _ =>
    if 128 ≤ b4 ∨ 128 ≤ b5 ∨ 128 ≤ b6 then .error .unicode
    else if ¬(b4 = 71 ∧ b5 = 87 ∧ b6 = 68) then .ok none
    else .ok (some ⟨b7 * 256 + b8, b9 * 256 + b10, b11,
      b0 + b1 * 256 + b2 * 65536 + b3 * 16777216⟩)
  | _ => .ok none

/-! ## Image decode (Gwd2Png.py unpack, save_image, process_directory) -/

/-- Channel loop of `unpack` for one row: `for c in range(nLoop): output[y,:,c]
= fill_line(...)`.  The numpy store raises `IndexError` when `c` is not below
the channel count (`row.length`). -/
def chan_loop : Nat → Nat → BitStream → Nat → List (List Nat) →
    Except PyErr (List (List Nat) × BitStream)
  | 0, _, s, _, row => .ok (row, s)
  | i + 1, width, s, c, row =>
    match fill_line s width with
    | .error e => .error e
    | .ok (line, s1) =>
      if c < row.length then chan_loop i width s1 (c + 1) (row.set c line)
      else .error .index

/-- Row loop of `unpack`: decode `height` rows of `nLoop` scanlines each into
a fresh `chans`-channel row buffer. -/
def row_loop : Nat → Nat → Nat → Nat → BitStream →
    Except PyErr (List (List (List Nat)) × BitStream)
  | 0, _, _, _, s => .ok ([], s)
  | h + 1, width, chans, nLoop, s =>
    match chan_loop nLoop width s 0 (List.replicate chans (List.replicate width 0)) with
    | .error e => .error e
    | .ok (row, s1) =>
      match row_loop h width chans nLoop s1 with
      | .error e => .error e
      | .ok (rows, s2) => .ok (row :: rows, s2)

/-- Decoded image: the primary channel planes per row, plus the inverted
alpha plane when one was appended by `np.dstack`. -/
structure GwdImage where
  rows : List (List (List Nat))
  alpha : Option (List (List Nat))
  deriving DecidableEq, Repr

def byte_at (bytes : List Nat) (i : Nat) : Option Nat := bytes.get? i

/-- Alpha-plane row loop: `for y in range(height): alpha_output[y,:] = fill_line`. -/
def alpha_row_loop : Nat → Nat → BitStream → Except PyErr (List (List Nat) × BitStream)
  | 0, _, s => .ok ([], s)
  | h + 1, width, s =>
    match fill_line s width with
    | .error e => .error e
    | .ok (line, s1) =>
      match alpha_row_loop h width s1 with
      | .error e => .error e
      | .ok (ls, s2) => .ok (line :: ls, s2)

/-- Alpha handling of `unpack` (lines 64-74): seek to `4 + data_size`, read one
flag byte (`read` past the end yields the empty bytes object, not byte 0x01); on flag
`0x01` read a nested header; when it is an 8bpp header of matching size,
decode the alpha plane, invert it (`255 - value`) and append it. -/
def alpha_phase (bytes : List Nat) (meta : GwdMetaData) (rows : List (List (List Nat))) :
    Except PyErr GwdImage :=
  match byte_at bytes (4 + meta.dataSize) with
  | none => .ok ⟨rows, none⟩
  | some flag =>
    if flag = 1 then
      match read_metadata (bytes.drop (4 + meta.dataSize + 1)) with
      | .error e => .error e
      | .ok none => .ok ⟨rows, none⟩
      | .ok (some am) =>
        if am.bpp = 8 ∧ am.width = meta.width ∧ am.height = meta.height then
          match alpha_row_loop meta.height meta.width ⟨bytes.drop (4 + meta.dataSize + 13), 0, 0⟩ with
          | .error e => .error e
          | .ok (aRows, _) =>
            .ok ⟨rows, some (aRows.map (fun r => r.map (fun v => 255 - v)))⟩
        else .ok ⟨rows, none⟩
    else .ok ⟨rows, none⟩

/-- `unpack` from Gwd2Png.py: seek to byte 12, allocate a `(3 if bpp == 24
else 1)`-channel buffer, and loop one scanline per channel per row — with
three channels per row for every `bpp ≠ 8`, whatever channel count the buffer has
count.  For `bpp = 24` the alpha phase follows. -/
def unpack (bytes : List Nat) (meta : GwdMetaData) : Except PyErr GwdImage :=
  match row_loop meta.height meta.width (if meta.bpp = 24 then 3 else 1)
      (if meta.bpp = 8 then 1 else 3) ⟨bytes.drop 12, 0, 0⟩ with
  | .error e => .error e
  | .ok (rows, _) =>
    if meta.bpp = 24 then alpha_phase bytes meta rows
    else .ok ⟨rows, none⟩

/-- Dispatch of `save_image` on `bpp`: values outside `{8, 24, 32}` raise
`ValueError` with message Unsupported bpp value (the `UnsupportedFormat` of the spec). -/
def save_image_check (bpp : Nat) : Except PyErr Unit :=
  if bpp = 8 then .ok () else if bpp = 24 then .ok ()
  else if bpp = 32 then .ok () else .error .valueError

/-- Per-file body of `process_directory` in Gwd2Png.py: `read_metadata`
(`None` → skip), `unpack`, then `save_image`; `.ok none` is the skipped
"Invalid GWD file" case. -/
def process_file (bytes : List Nat) : Except PyErr (Option GwdImage) :=
  match read_metadata bytes with
  | .error e => .error e
  | .ok none => .ok none
  | .ok (some meta) =>
    match unpack bytes meta with
    | .error e => .error e
    | .ok img =>
      match save_image_check meta.bpp with
      | .error e => .error e
      | .ok _ => .ok (some img)

/-! ## BitStreamWriter (png2gwd.py) -/

structure BitWriter where
  out : List Nat
  buffer : Nat
  bufferSize : Nat
  deriving DecidableEq, Repr

/-- Emission loop of `write_bits`: `while buffer_size >= 8` pop the top byte.
Fuel `size` is sufficient (each pass removes 8). The buffer itself is never
masked, exactly as in the source. -/
def emit_aux : Nat → List Nat → Nat → Nat → List Nat × Nat
  | 0, out, _, size => (out, size)
  | fuel + 1, out, buffer, size =>
    if 8 ≤ size then emit_aux fuel (out ++ [buffer >>> (size - 8) &&& 255]) buffer (size - 8)
    else (out, size)

/-- `write_bits(value, n)` from png2gwd.py: `buffer = (buffer << n) | value`,
then emit complete bytes.  The source accepts arbitrary Python ints; this
embedding covers the non-negative values (negative arguments, which the
broken encoder paths can produce, are tracked at the call-event level by
`write_line_calls`). -/
def write_bits (w : BitWriter) (value n : Nat) : BitWriter :=
  let buffer := w.buffer <<< n ||| value
  let size := w.bufferSize + n
  let os := emit_aux size w.out buffer size
  ⟨os.1, buffer, os.2⟩

/-- `flush` from png2gwd.py: left-justify residual bits into a final byte. -/
def flush (w : BitWriter) : BitWriter :=
  if 0 < w.bufferSize then ⟨w.out ++ [w.buffer <<< (8 - w.bufferSize) &&& 255], 0, 0⟩
  else w

/-! ## Encoder call sequences (png2gwd.py) -/

/-- Loop of `get_bit_length`: number of right shifts until the value is 0.
Fuel `v` is sufficient since `⌊log2 v⌋ + 1 ≤ v` for `v ≥ 1`. -/
def bit_len_aux : Nat → Nat → Nat
  | 0, _ => 0
  | _ + 1, 0 => 0
  | fuel + 1, v + 1 => bit_len_aux fuel ((v + 1) / 2) + 1

/-- `get_bit_length` from png2gwd.py: returns `length - 1`, which is `-1`
for input `0`. -/
def get_bit_length (v : Nat) : Int := (bit_len_aux v v : Int) - 1

/-- Loop of `get_run_length`: count following elements equal to `v`, the cap
argument encoding the `length < 255` bound. -/
def run_len (v : Nat) : List Nat → Nat → Nat
  | [], _ => 0
  | _ :: _, 0 => 0
  | x :: xs, cap + 1 => if x = v then run_len v xs cap + 1 else 0

/-- Loop of `write_count`: minimal `n ≥ 1` with `count ≤ 2^n - 2`.  Fuel
`count + 2` is sufficient. -/
def count_n_aux : Nat → Nat → Nat → Nat
  | 0, _, n => n
  | fuel + 1, count, n => if 2 ^ n - 2 < count then count_n_aux fuel count (n + 1) else n

/-- The two `write_bits` calls of `write_count`, as (value, num_bits) events.
The suffix `count - (2^n - 2)` is a Python int and can be negative. -/
def write_count_calls (count : Nat) : List (Int × Nat) :=
  let n := count_n_aux (count + 2) count 1
  [((n - 1 : Nat), 3), ((count : Int) - ((2 ^ n : Nat) - 2 : Nat), n)]

/-- The `write_bits` call sequence of `write_line`, as (value, num_bits)
events: runs of length > 1 (capped at 255) emit a zero width code and a
count; single symbols emit `get_bit_length` (which is `-1` for symbol 0) as
a 3-bit width code and the literal in `bit_length + 1` bits.  Fuel
`line.length` is sufficient since each step consumes ≥ 1 element. -/
def write_line_calls_aux : Nat → List Nat → List (Int × Nat)
  | 0, _ => []
  | _ + 1, [] => []
  | fuel + 1, x :: xs =>
    let count := 1 + run_len x xs 254
    if 1 < count then
      ((0 : Int), 3) :: (write_count_calls (count - 1) ++
        write_line_calls_aux fuel (List.drop (count - 1) xs))
    else
      (get_bit_length x, 3) :: ((x : Int), (get_bit_length x + 1).toNat) ::
        write_line_calls_aux fuel xs

def write_line_calls (line : List Nat) : List (Int × Nat) :=
  write_line_calls_aux line.length line

/-- `delta_encode_line` from png2gwd.py: symbol 0 is the literal first pixel;
symbol `i` is `encode_delta(line[i], line[i-1])` with the original previous
pixel as context. -/
def delta_enc_aux (prev : Nat) : List Nat → List Nat
  | [] => []
  | x :: xs => encode_delta x prev :: delta_enc_aux x xs

def delta_encode_line : List Nat → List Nat
  | [] => []
  | x :: xs => x :: delta_enc_aux x xs

/-- Apply a list of non-negative call events to the writer.  All events fed
to this function in this development are non-negative (`Int.toNat` is then
the identity). -/
def apply_calls (w : BitWriter) (calls : List (Int × Nat)) : BitWriter :=
  calls.foldl (fun w c => write_bits w c.1.toNat c.2) w

/-- Column `c` of a row of pixels (numpy `image_data[y, :, c]`). -/
def channel_line (row : List (List Nat)) (c : Nat) : List Nat :=
  row.map (fun px => px.getD c 0)

/-- The `write_bits` call sequence of `pack`: for each row, for each channel,
`write_line(delta_encode_line(...))`. -/
def pack_calls (image : List (List (List Nat))) (nchan : Nat) : List (Int × Nat) :=
  image.foldr (fun row acc =>
    (List.range nchan).foldr (fun c acc2 =>
      write_line_calls (delta_encode_line (channel_line row c)) ++ acc2) [] ++ acc) []

/-- Byte output of `pack` followed by the final `flush`. -/
def pack_bytes (image : List (List (List Nat))) (bpp : Nat) : List Nat :=
  (flush (apply_calls ⟨[], 0, 0⟩ (pack_calls image (if bpp = 24 then 3 else 1)))).out

/-- The `data_size` computed by `process_directory` in png2gwd.py:
`height * width * (bpp // 8)`. -/
def encoder_data_size (height width bpp : Nat) : Nat := height * width * (bpp / 8)

/-- `write_metadata` from png2gwd.py: `struct.pack` of `data_size` with format
`<I`, the magic `GWD`, then width/height/bpp with format `>HHB`; `struct.pack` raises on
out-of-range values (`none`). -/
def write_metadata (width height bpp dataSize : Nat) : Option (List Nat) :=
  if dataSize < 2 ^ 32 ∧ width < 2 ^ 16 ∧ height < 2 ^ 16 ∧ bpp < 2 ^ 8 then
    some [dataSize % 256, dataSize / 256 % 256, dataSize / 65536 % 256,
      dataSize / 16777216 % 256, 71, 87, 68,
      width / 256, width % 256, height / 256, height % 256, bpp]
  else none

/-! ## Round-trip pipelines used by the claims -/

/-- Bytes produced by `write_count(n)` on a fresh writer, flushed. -/
def encode_count_bytes (n : Nat) : List Nat :=
  (flush (apply_calls ⟨[], 0, 0⟩ (write_count_calls n))).out

/-- Value produced by `get_count` on a fresh bit stream over `bytes`. -/
def decode_count_bytes (bytes : List Nat) : Except PyErr Nat :=
  (get_count ⟨bytes, 0, 0⟩).map (·.1)

/-- Bytes produced by `write_line(delta_encode_line(row))` on a fresh
writer, flushed. -/
def encode_line_bytes (row : List Nat) : List Nat :=
  (flush (apply_calls ⟨[], 0, 0⟩ (write_line_calls (delta_encode_line row)))).out

/-- Row produced by `fill_line` on a fresh bit stream over `bytes`. -/
def decode_line_bytes (bytes : List Nat) (width : Nat) : Except PyErr (List Nat) :=
  (fill_line ⟨bytes, 0, 0⟩ width).map (·.1)

/-! ## Abstractions used in the claim statements -/

/-- Bytes already emitted by a writer, read as one big MSB-first number. -/
def out_val (out : List Nat) : Nat := out.foldl (fun a b => a * 256 + b) 0

/-- The bit string accumulated in a writer (emitted bytes followed by the
pending low `bufferSize` bits of the buffer), as a number. -/
def writer_val (w : BitWriter) : Nat :=
  out_val w.out * 2 ^ w.bufferSize + w.buffer % 2 ^ w.bufferSize

/-- The number of bits accumulated in a writer. -/
def writer_len (w : BitWriter) : Nat := w.out.length * 8 + w.bufferSize

/-- Position `i` holds symbol `0` and its run of identical consecutive
symbols has length exactly 1 (both neighbours, where present, differ
from 0). -/
def isolated_zero (l : List Nat) (i : Nat) : Prop :=
  l.get? i = some 0 ∧ (i = 0 ∨ l.get? (i - 1) ≠ some 0) ∧ l.get? (i + 1) ≠ some 0

/-! # Claims

Each claim of the specification is settled by one theorem below.

## C1 — delta predictor round trip

The claimed contract `DELTA_TABLE[encode_delta(c, p)][p] = c` for all
`p, c ∈ [0,255]` fails: `encode_delta` in png2gwd.py is a verbatim copy of
the *decode* rule of the table (which is not an involution), not its inverse.
Already `c = 2, p = 1` breaks it. -/

/-- C1: decoding the delta-encoded symbol does not recover the pixel: for
current pixel 2 and previous pixel 1 the code yields 1, not 2. -/
theorem c1_delta_roundtrip_fails_on_code :
    delta_table (encode_delta 2 1) 1 = 1 ∧ (1 : Nat) ≠ 2 :=
  ⟨rfl, by decide⟩

/-! ## C2 — universal count code round trip

`write_count` writes the prefix `n - 1` as a 3-bit binary field, while
`get_count` expects a unary `n - 1`-zeros-then-one prefix, so the round
trip fails; `n = 30` (encoded as the single byte `0x80`) decodes to 0. -/

/-- C2: the count round trip fails on the code: writing 30 with
`write_count` and reading it back with `get_count` yields 0. -/
theorem c2_count_roundtrip_fails_on_code :
    decode_count_bytes (encode_count_bytes 30) = .ok 0 ∧ (0 : Nat) ≠ 30 :=
  ⟨rfl, by decide⟩

/-! ## C3 — scanline round trip

For the one-pixel row `[1]` the encoder emits width code
`get_bit_length 1 = 0`, which the decoder interprets as a *zero run*, so
the row decodes to `[0]`. -/

/-- C3: the scanline round trip fails on the code: the row `[1]` of width 1
decodes to `[0]` after encoding. -/
theorem c3_scanline_roundtrip_fails_on_code :
    decode_line_bytes (encode_line_bytes [1]) 1 = .ok [0] ∧ ([0] : List Nat) ≠ [1] :=
  ⟨rfl, by decide⟩

/-! ## C4 — payloadSize field vs. compressed payload length

The encoder stores `height * width * (bpp / 8)` — the *uncompressed* size —
in the header, while the compressed payload following the header has a
different length already for a 1×1 24bpp image with pixel `(1,1,1)`
(2 bytes of payload vs. a declared 3). -/

/-- C4: for the 1×1 24bpp image with pixel `(1,1,1)` the header field is 3
but the compressed scanline payload written by `pack` is 2 bytes long. -/
theorem c4_payload_size_mismatch :
    encoder_data_size 1 1 24 = 3 ∧ (pack_bytes [[[1, 1, 1]]] 24).length = 2 ∧
      (3 : Nat) ≠ 2 :=
  ⟨rfl, rfl, by decide⟩

/-! ## Error classification of the decode loops

`unpack` can only fail with `EOFError` (bit stream exhausted) or numpy
`IndexError` before the bpp dispatch of `save_image` is ever reached; these
lemmas classify the possible errors of each decoding layer. -/

theorem refill_aux_error (n : Nat) :
    ∀ bytes buffer size e, refill_aux n bytes buffer size = .error e → e = .eof := by
  intro bytes
  induction bytes with
  | nil =>
    intro buffer size e h
    rw [refill_aux] at h
    split at h
    · exact (Except.error.injEq _ _).mp h |>.symm
    · exact absurd h (by simp)
  | cons b rest ih =>
    intro buffer size e h
    rw [refill_aux] at h
    split at h
    · exact ih _ _ _ h
    · exact absurd h (by simp)

theorem get_bits_error (s : BitStream) (n : Nat) (e : PyErr)
    (h : get_bits s n = .error e) : e = .eof := by
  rw [get_bits] at h
  split at h
  · next heq => exact refill_aux_error n _ _ _ e (by rw [heq]; exact congrArg Except.error ((Except.error.injEq _ _).mp h).symm ▸ rfl)
  · exact absurd h (by simp)

theorem get_count_loop_error :
    ∀ fuel s k e, get_count_loop fuel s k = .error e → e = .eof ∨ e = .fuel := by
  intro fuel
  induction fuel with
  | zero =>
    intro s k e h
    rw [get_count_loop] at h
    exact Or.inr ((Except.error.injEq _ _).mp h).symm
  | succ fuel ih =>
    intro s k e h
    rw [get_count_loop] at h
    split at h
    · next heq => exact Or.inl (get_bits_error _ _ _ heq ▸ ((Except.error.injEq _ _).mp h).symm ▸ rfl)
    · next b s1 heq =>
      split at h
      · exact ih _ _ _ h
      · split at h
        · next heq2 => exact Or.inl (get_bits_error _ _ _ heq2 ▸ ((Except.error.injEq _ _).mp h).symm ▸ rfl)
        · exact absurd h (by simp)

theorem get_count_error (s : BitStream) (e : PyErr)
    (h : get_count s = .error e) : e = .eof ∨ e = .fuel :=
  get_count_loop_error _ _ _ _ h

theorem literal_loop_error :
    ∀ count s nbits pos width line e,
      literal_loop count s nbits pos width line = .error e → e = .eof ∨ e = .index := by
  intro count
  induction count with
  | zero => intro s nbits pos width line e h; exact absurd h (by rw [literal_loop]; simp)
  | succ count ih =>
    intro s nbits pos width line e h
    rw [literal_loop] at h
    split at h
    · split at h
      · next heq => exact Or.inl (get_bits_error _ _ _ heq ▸ ((Except.error.injEq _ _).mp h).symm ▸ rfl)
      · exact ih _ _ _ _ _ _ h
    · exact Or.inr ((Except.error.injEq _ _).mp h).symm

theorem fill_line_loop_error :
    ∀ fuel s width dst line e, fill_line_loop fuel s width dst line = .error e →
      e = .eof ∨ e = .index ∨ e = .fuel := by
  intro fuel
  induction fuel with
  | zero =>
    intro s width dst line e h
    rw [fill_line_loop] at h
    exact Or.inr (Or.inr ((Except.error.injEq _ _).mp h).symm)
  | succ fuel ih =>
    intro s width dst line e h
    rw [fill_line_loop] at h
    split at h
    · split at h
      · next heq => exact Or.inl (get_bits_error _ _ _ heq ▸ ((Except.error.injEq _ _).mp h).symm ▸ rfl)
      · split at h
        · next heq =>
          rcases get_count_error _ _ heq with h1 | h1 <;>
            simp_all
        · split at h
          · split at h
            · next heq =>
              rcases literal_loop_error _ _ _ _ _ _ _ heq with h1 | h1 <;> simp_all
            · exact ih _ _ _ _ _ h
          · exact ih _ _ _ _ _ h
    · exact absurd h (by simp)

theorem fill_line_error (s : BitStream) (width : Nat) (e : PyErr)
    (h : fill_line s width = .error e) : e = .eof ∨ e = .index ∨ e = .fuel := by
  rw [fill_line] at h
  split at h
  · next heq => exact fill_line_loop_error _ _ _ _ _ _ (heq.trans (congrArg Except.error ((Except.error.injEq _ _).mp h)))
  · exact absurd h (by simp)

/-! ### Fuel adequacy

The `.fuel` outcome is unreachable for the fuel amounts used by `get_count`
and `fill_line`, so the fuelled loops coincide with the source loops. -/

theorem refill_aux_ok (n : Nat) :
    ∀ bytes buffer size out, refill_aux n bytes buffer size = .ok out →
      out.1.length * 8 + out.2.2 = bytes.length * 8 + size ∧ n ≤ out.2.2 := by
  intro bytes
  induction bytes with
  | nil =>
    intro buffer size out h
    rw [refill_aux] at h
    split at h
    · exact absurd h (by simp)
    · next hns =>
      obtain rfl : ([], buffer, size) = out := (Except.ok.injEq _ _).mp h
      exact ⟨rfl, by dsimp only; omega⟩
  | cons b rest ih =>
    intro buffer size out h
    rw [refill_aux] at h
    split at h
    · obtain ⟨h1, h2⟩ := ih _ _ _ h
      refine ⟨?_, h2⟩
      rw [h1]
      simp only [List.length_cons]
      omega
    · next hns =>
      obtain rfl : (b :: rest, buffer, size) = out := (Except.ok.injEq _ _).mp h
      exact ⟨rfl, by dsimp only; omega⟩

theorem get_bits_ok_total (s : BitStream) (n r : Nat) (s1 : BitStream)
    (h : get_bits s n = .ok (r, s1)) : s1.totalBits + n = s.totalBits := by
  rw [get_bits] at h
  cases heq : refill_aux n s.bytes s.buffer s.bufferSize with
  | error e => rw [heq] at h; exact absurd h (by simp)
  | ok out =>
    obtain ⟨bytes, buffer, size⟩ := out
    rw [heq] at h
    dsimp only at h
    obtain ⟨h1, h2⟩ := refill_aux_ok n s.bytes s.buffer s.bufferSize _ heq
    dsimp only at h1 h2
    have hs1 : s1 = ⟨bytes, buffer % 2 ^ (size - n), size - n⟩ :=
      (congrArg Prod.snd ((Except.ok.injEq _ _).mp h)).symm
    rw [hs1]
    dsimp only [BitStream.totalBits]
    omega

theorem get_count_loop_no_fuel :
    ∀ fuel s k, s.totalBits < fuel → get_count_loop fuel s k ≠ .error .fuel := by
  intro fuel
  induction fuel with
  | zero => intro s k h; omega
  | succ fuel ih =>
    intro s k h
    rw [get_count_loop]
    cases h1 : get_bits s 1 with
    | error e =>
      have he := get_bits_error _ _ _ h1
      subst he
      simp
    | ok p =>
      obtain ⟨b, s1⟩ := p
      dsimp only
      by_cases hb : b = 0
      · rw [if_pos hb]
        refine ih s1 (k + 1) ?_
        have := get_bits_ok_total s 1 b s1 h1
        omega
      · rw [if_neg hb]
        cases h2 : get_bits s1 k with
        | error e =>
          have he := get_bits_error _ _ _ h2
          subst he
          simp
        | ok q =>
          obtain ⟨suffix, s2⟩ := q
          simp

theorem get_count_no_fuel (s : BitStream) : get_count s ≠ .error .fuel :=
  get_count_loop_no_fuel (s.totalBits + 1) s 1 (by omega)

theorem fill_line_loop_no_fuel :
    ∀ fuel s width dst line, width - dst < fuel →
      fill_line_loop fuel s width dst line ≠ .error .fuel := by
  intro fuel
  induction fuel with
  | zero => intro s width dst line h; omega
  | succ fuel ih =>
    intro s width dst line h
    rw [fill_line_loop]
    by_cases hdw : dst < width
    · rw [if_pos hdw]
      cases h1 : get_bits s 3 with
      | error e =>
        have he := get_bits_error _ _ _ h1
        subst he
        simp
      | ok p =>
        obtain ⟨len, s1⟩ := p
        dsimp only
        cases h2 : get_count s1 with
        | error e =>
          have he : e ≠ .fuel := fun hf => get_count_no_fuel s1 (hf ▸ h2)
          simpa using he
        | ok q =>
          obtain ⟨cnt, s2⟩ := q
          dsimp only
          by_cases hlen : len ≠ 0
          · rw [if_pos hlen]
            cases h3 : literal_loop (cnt + 1) s2 (len + 1) dst width line with
            | error e =>
              rcases literal_loop_error _ _ _ _ _ _ _ h3 with he | he <;> subst he <;> simp
            | ok r =>
              obtain ⟨line1, s3⟩ := r
              dsimp only
              exact ih s3 width (dst + (cnt + 1)) line1 (by omega)
          · rw [if_neg hlen]
            exact ih s2 width (dst + (cnt + 1)) line (by omega)
    · rw [if_neg hdw]
      simp

theorem fill_line_no_fuel (s : BitStream) (width : Nat) :
    fill_line s width ≠ .error .fuel := by
  rw [fill_line]
  cases h1 : fill_line_loop (width + 1) s width 0 (List.replicate width 0) with
  | error e =>
    have he : e ≠ .fuel := fun hf =>
      fill_line_loop_no_fuel (width + 1) s width 0 (List.replicate width 0)
        (by omega) (hf ▸ h1)
    simpa using he
  | ok p =>
    obtain ⟨line, s1⟩ := p
    simp

/-- With a single-channel buffer but a three-channel loop, the channel loop
of `unpack` always fails, and never with `ValueError`. -/
theorem chan_loop_one_chan (width : Nat) (s : BitStream) (row : List (List Nat))
    (hrow : row.length = 1) :
    ∃ e, chan_loop 3 width s 0 row = .error e ∧ e ≠ .valueError := by
  cases h0 : fill_line s width with
  | error e =>
    refine ⟨e, ?_, ?_⟩
    · rw [chan_loop, h0]
    · rcases fill_line_error _ _ _ h0 with h | h | h <;> simp [h]
  | ok p =>
    obtain ⟨line0, s1⟩ := p
    cases h1 : fill_line s1 width with
    | error e =>
      refine ⟨e, ?_, ?_⟩
      · rw [chan_loop, h0]
        dsimp only
        rw [if_pos (show (0 : Nat) < row.length by omega)]
        rw [chan_loop, h1]
      · rcases fill_line_error _ _ _ h1 with h | h | h <;> simp [h]
    | ok q =>
      obtain ⟨line1, s2⟩ := q
      refine ⟨.index, ?_, by simp⟩
      rw [chan_loop, h0]
      dsimp only
      rw [if_pos (show (0 : Nat) < row.length by omega)]
      rw [chan_loop, h1]
      dsimp only
      rw [if_neg (show ¬(0 + 1 < (row.set 0 line0).length) by simp [hrow])]

/-! ## C5 — unsupported bit depths

The spec claims `bpp ∉ {8, 24, 32}` fails with `UnsupportedFormat`
(`ValueError`).  In fact, for any image of height ≥ 1, `unpack` runs the
three-channel loop over a one-channel buffer and dies with a numpy
`IndexError` (or `EOFError` if the stream runs out first) before
the bpp check of `save_image` is reached.  The check is reachable only for
height 0. -/

/-- C5 counterexample: the 12-byte header with `bpp = 16`, width 0,
height 1 makes `process_file` fail with `IndexError`, not with the
`ValueError` that models `UnsupportedFormat`. -/
theorem c5_counterexample :
    process_file [0, 0, 0, 0, 71, 87, 68, 0, 0, 0, 1, 16] = .error .index ∧
      PyErr.index ≠ PyErr.valueError :=
  ⟨rfl, by decide⟩

/-- C5 (amended): for every GWD input whose header has `bitsPerPixel`
outside `{8, 24, 32}` and height at least 1, decoding fails, and the
failure is never the `ValueError`/`UnsupportedFormat` of `save_image` —
the three-channel scanline loop fails first on the one-channel buffer. -/
theorem c5_unsupported_bpp_error_kind (bytes : List Nat) (meta : GwdMetaData)
    (hmeta : read_metadata bytes = .ok (some meta))
    (h8 : meta.bpp ≠ 8) (h24 : meta.bpp ≠ 24) (_h32 : meta.bpp ≠ 32)
    (hh : 1 ≤ meta.height) :
    ∃ e, process_file bytes = .error e ∧ e ≠ .valueError := by
  obtain ⟨hgt, hh'⟩ : ∃ hgt, meta.height = hgt + 1 := ⟨meta.height - 1, by omega⟩
  obtain ⟨e, he, hne⟩ :=
    chan_loop_one_chan meta.width ⟨bytes.drop 12, 0, 0⟩
      (List.replicate 1 (List.replicate meta.width 0)) (by simp)
  refine ⟨e, ?_, hne⟩
  rw [process_file, hmeta]
  dsimp only
  rw [unpack, if_neg h24, if_neg h8, hh']
  rw [row_loop, he]

/-- C5 witness: the amended statement at the concrete `bpp = 16` header. -/
theorem c5_witness :
    ∃ e, process_file [0, 0, 0, 0, 71, 87, 68, 0, 0, 0, 1, 16] = .error e ∧
      e ≠ .valueError :=
  c5_unsupported_bpp_error_kind _ ⟨0, 1, 16, 0⟩ rfl (by decide) (by decide)
    (by decide) (by decide)

/-! ## C6 — header decode

The claim states `read_metadata` returns the recoverable `None` signal *iff*
the input is shorter than 12 bytes or the magic bytes differ from `"GWD"`.
That is not quite what the code does: the ascii decode of `header[4:7]` raises
`UnicodeDecodeError` whenever one of bytes 4..6 is ≥ 0x80, so such inputs
produce an exception rather than the `None` signal. -/

/-- C6 counterexample: a 12-byte input whose magic field is not `"GWD"`
(its first magic byte is `0x80`), for which `read_metadata` raises
`UnicodeDecodeError` instead of returning the `None` signal claimed. -/
theorem c6_counterexample :
    read_metadata [0, 0, 0, 0, 128, 0, 0, 0, 0, 0, 0, 0] = .error .unicode ∧
      (Except.error .unicode : Except PyErr (Option GwdMetaData)) ≠ .ok none :=
  ⟨rfl, by simp⟩

/-- C6 (amended): `read_metadata` returns the `None` signal iff the input is
shorter than 12 bytes, or bytes 4..6 are ASCII (< 0x80) and differ from
`"GWD"`; when one of bytes 4..6 is ≥ 0x80 it instead raises
`UnicodeDecodeError`; and on a `"GWD"` header it returns payloadSize as
unsigned little-endian bytes 0..3, width as unsigned big-endian bytes 7..8,
height as unsigned big-endian bytes 9..10, and bitsPerPixel from byte 11. -/
theorem c6_read_metadata_spec :
    (∀ input : List Nat, input.length < 12 → read_metadata input = .ok none) ∧
    (∀ b0 b1 b2 b3 b4 b5 b6 b7 b8 b9 b10 b11 : Nat, ∀ rest : List Nat,
      128 ≤ b4 ∨ 128 ≤ b5 ∨ 128 ≤ b6 →
      read_metadata (b0 :: b1 :: b2 :: b3 :: b4 :: b5 :: b6 :: b7 :: b8 :: b9 ::
        b10 :: b11 :: rest) = .error .unicode) ∧
    (∀ b0 b1 b2 b3 b4 b5 b6 b7 b8 b9 b10 b11 : Nat, ∀ rest : List Nat,
      b4 < 128 → b5 < 128 → b6 < 128 → ¬(b4 = 71 ∧ b5 = 87 ∧ b6 = 68) →
      read_metadata (b0 :: b1 :: b2 :: b3 :: b4 :: b5 :: b6 :: b7 :: b8 :: b9 ::
        b10 :: b11 :: rest) = .ok none) ∧
    (∀ b0 b1 b2 b3 b7 b8 b9 b10 b11 : Nat, ∀ rest : List Nat,
      read_metadata (b0 :: b1 :: b2 :: b3 :: 71 :: 87 :: 68 :: b7 :: b8 :: b9 ::
        b10 :: b11 :: rest) =
        .ok (some ⟨b7 * 256 + b8, b9 * 256 + b10, b11,
          b0 + b1 * 256 + b2 * 65536 + b3 * 16777216⟩)) := by
  refine ⟨?_, ?_, ?_, ?_⟩
  · intro input hlen
    rcases input with _ | ⟨a0, _ | ⟨a1, _ | ⟨a2, _ | ⟨a3, _ | ⟨a4, _ | ⟨a5, _ | ⟨a6,
      _ | ⟨a7, _ | ⟨a8, _ | ⟨a9, _ | ⟨a10, _ | ⟨a11, rest⟩⟩⟩⟩⟩⟩⟩⟩⟩⟩⟩⟩ <;>
      first
        | rfl
        | (exfalso; simp only [List.length_cons] at hlen; omega)
  · intro b0 b1 b2 b3 b4 b5 b6 b7 b8 b9 b10 b11 rest h
    rw [read_metadata, if_pos h]
  · intro b0 b1 b2 b3 b4 b5 b6 b7 b8 b9 b10 b11 rest h4 h5 h6 hm
    rw [read_metadata, if_neg (by omega), if_pos hm]
  · intro b0 b1 b2 b3 b7 b8 b9 b10 b11 rest
    rw [read_metadata, if_neg (by omega), if_neg (by simp)]

/-- C6 witness: the amended statement applied to a concrete valid header. -/
theorem c6_witness :
    read_metadata [1, 0, 0, 0, 71, 87, 68, 0, 2, 0, 3, 24] =
      .ok (some ⟨0 * 256 + 2, 0 * 256 + 3, 24, 1 + 0 * 256 + 0 * 65536 + 0 * 16777216⟩) :=
  c6_read_metadata_spec.2.2.2 1 0 0 0 0 2 0 3 24 []

/-! ## C7 — header round trip -/

/-- C7: for every valid metadata record (width and height fitting u16,
payloadSize fitting u32, bitsPerPixel fitting u8), `read_metadata` applied
to the bytes produced by `write_metadata` returns the same record. -/
theorem c7_metadata_roundtrip (w h b ds : Nat) (hw : w < 2 ^ 16) (hh : h < 2 ^ 16)
    (hb : b < 2 ^ 8) (hds : ds < 2 ^ 32) :
    ∃ bytes, write_metadata w h b ds = some bytes ∧
      read_metadata bytes = .ok (some ⟨w, h, b, ds⟩) := by
  refine ⟨[ds % 256, ds / 256 % 256, ds / 65536 % 256, ds / 16777216 % 256,
    71, 87, 68, w / 256, w % 256, h / 256, h % 256, b], ?_, ?_⟩
  · rw [write_metadata, if_pos ⟨hds, hw, hh, hb⟩]
  · rw [read_metadata, if_neg (by omega), if_neg (by simp)]
    simp only [Except.ok.injEq, Option.some.injEq, GwdMetaData.mk.injEq]
    refine ⟨by omega, by omega, trivial, by omega⟩

/-- C7 witness: the round trip at a concrete record. -/
theorem c7_witness :
    ∃ bytes, write_metadata 640 480 24 921600 = some bytes ∧
      read_metadata bytes = .ok (some ⟨640, 480, 24, 921600⟩) :=
  c7_metadata_roundtrip 640 480 24 921600 (by norm_num) (by norm_num)
    (by norm_num) (by norm_num)

/-! ## C8 — alpha sub-image handling

The mismatch cases (flag byte ≠ 0x01, nested header yielding the `None`
signal, nested bpp/width/height mismatch) do silently skip alpha, and an
appended 4th channel is always the inverted decoded plane — but "nested
header absent" is not always a silent skip: when the 12 bytes at the nested
header position carry a byte ≥ 0x80 in the magic field, the nested
`read_metadata` call raises `UnicodeDecodeError` and decode fails. -/

/-- C8 counterexample: a well-formed 1×1 24bpp image whose primary payload
decodes, followed by flag byte 0x01 and 12 bytes that are not a GWD header
(byte 0x80 in the magic field).  The claim says this decodes to an opaque
3-channel image with no error; the code raises `UnicodeDecodeError`. -/
theorem c8_counterexample :
    process_file [11, 0, 0, 0, 71, 87, 68, 0, 1, 0, 1, 24,
        48, 96, 192, 1, 0, 0, 0, 0, 128, 0, 0, 0, 0, 0, 0, 0] = .error .unicode ∧
      (Except.error .unicode : Except PyErr (Option GwdImage)) ≠
        .ok (some ⟨[[[0], [0], [0]]], none⟩) :=
  ⟨rfl, by simp⟩

/-- C8 (amended): for the alpha phase of `unpack` — (1) a missing flag byte
or a flag byte other than 0x01 yields the 3-channel result unchanged with
no error; (2) likewise when the nested header read returns the `None`
signal; (3) likewise when the nested header has `bpp ≠ 8` or mismatched
dimensions; (4) a 4th channel is appended only when the flag is 0x01 and
the nested 8bpp header matches the primary dimensions, and it is then
exactly the decoded alpha plane with every sample replaced by `255 -
sample`.  (When the nested 12 bytes hold a non-ASCII magic byte, case (2)
does not apply: `read_metadata` raises instead of returning `None`, and the
error propagates, as the counterexample shows.) -/
theorem c8_alpha_phase_spec :
    (∀ bytes meta rows,
      (byte_at bytes (4 + meta.dataSize) = none ∨
        ∃ f, byte_at bytes (4 + meta.dataSize) = some f ∧ f ≠ 1) →
      alpha_phase bytes meta rows = .ok ⟨rows, none⟩) ∧
    (∀ bytes meta rows, byte_at bytes (4 + meta.dataSize) = some 1 →
      read_metadata (bytes.drop (4 + meta.dataSize + 1)) = .ok none →
      alpha_phase bytes meta rows = .ok ⟨rows, none⟩) ∧
    (∀ bytes meta rows am, byte_at bytes (4 + meta.dataSize) = some 1 →
      read_metadata (bytes.drop (4 + meta.dataSize + 1)) = .ok (some am) →
      ¬(am.bpp = 8 ∧ am.width = meta.width ∧ am.height = meta.height) →
      alpha_phase bytes meta rows = .ok ⟨rows, none⟩) ∧
    (∀ bytes meta rows img p, alpha_phase bytes meta rows = .ok img →
      img.alpha = some p →
      img.rows = rows ∧
      byte_at bytes (4 + meta.dataSize) = some 1 ∧
      ∃ am, read_metadata (bytes.drop (4 + meta.dataSize + 1)) = .ok (some am) ∧
        am.bpp = 8 ∧ am.width = meta.width ∧ am.height = meta.height ∧
        ∃ aRows s1, alpha_row_loop meta.height meta.width
            ⟨bytes.drop (4 + meta.dataSize + 13), 0, 0⟩ = .ok (aRows, s1) ∧
          p = aRows.map (fun r => r.map (fun v => 255 - v))) := by
  refine ⟨?_, ?_, ?_, ?_⟩
  · intro bytes meta rows hflag
    rcases hflag with hnone | ⟨f, hsome, hf⟩
    · rw [alpha_phase, hnone]
    · rw [alpha_phase, hsome]
      dsimp only
      rw [if_neg hf]
  · intro bytes meta rows hflag hmeta
    rw [alpha_phase, hflag]
    dsimp only
    rw [if_pos rfl, hmeta]
  · intro bytes meta rows am hflag hmeta hmm
    rw [alpha_phase, hflag]
    dsimp only
    rw [if_pos rfl, hmeta]
    dsimp only
    rw [if_neg hmm]
  · intro bytes meta rows img p himg hp
    rw [alpha_phase] at himg
    cases hflag : byte_at bytes (4 + meta.dataSize) with
    | none =>
      rw [hflag] at himg
      obtain rfl : (⟨rows, none⟩ : GwdImage) = img := by
        exact (Except.ok.injEq _ _).mp himg
      exact absurd hp (by simp)
    | some f =>
      rw [hflag] at himg
      dsimp only at himg
      by_cases hf : f = 1
      · rw [if_pos hf] at himg
        cases hmeta : read_metadata (bytes.drop (4 + meta.dataSize + 1)) with
        | error e => rw [hmeta] at himg; exact absurd himg (by simp)
        | ok o =>
          cases o with
          | none =>
            rw [hmeta] at himg
            obtain rfl : (⟨rows, none⟩ : GwdImage) = img :=
              (Except.ok.injEq _ _).mp himg
            exact absurd hp (by simp)
          | some am =>
            rw [hmeta] at himg
            dsimp only at himg
            by_cases hmm : am.bpp = 8 ∧ am.width = meta.width ∧ am.height = meta.height
            · rw [if_pos hmm] at himg
              cases hrowsa : alpha_row_loop meta.height meta.width
                  ⟨bytes.drop (4 + meta.dataSize + 13), 0, 0⟩ with
              | error e => rw [hrowsa] at himg; exact absurd himg (by simp)
              | ok q =>
                obtain ⟨aRows, s1⟩ := q
                rw [hrowsa] at himg
                obtain rfl : (⟨rows, some (aRows.map (fun r => r.map (fun v => 255 - v)))⟩ :
                    GwdImage) = img := (Except.ok.injEq _ _).mp himg
                obtain rfl : aRows.map (fun r => r.map (fun v => 255 - v)) = p := by
                  simpa using hp
                subst hf
                exact ⟨rfl, rfl, am, rfl, hmm.1, hmm.2.1, hmm.2.2, aRows, s1,
                  rfl, rfl⟩
            · rw [if_neg hmm] at himg
              obtain rfl : (⟨rows, none⟩ : GwdImage) = img :=
                (Except.ok.injEq _ _).mp himg
              exact absurd hp (by simp)
      · rw [if_neg hf] at himg
        obtain rfl : (⟨rows, none⟩ : GwdImage) = img :=
          (Except.ok.injEq _ _).mp himg
        exact absurd hp (by simp)

/-- C8 witness: the mismatch branch of the amended statement at a concrete
input (no flag byte at all). -/
theorem c8_witness :
    alpha_phase [] ⟨1, 1, 24, 0⟩ [[[0], [0], [0]]] = .ok ⟨[[[0], [0], [0]]], none⟩ :=
  c8_alpha_phase_spec.1 [] ⟨1, 1, 24, 0⟩ [[[0], [0], [0]]] (Or.inl rfl)

/-! ## C9 — write_bits appends the low n bits

The claim quantifies over *every* value.  But `(buffer << n) | value` only
behaves as "append the low `n` bits" when `0 ≤ value < 2^n`: bits of
`value` at positions ≥ n are OR-ed into the pending bits already in the
accumulator and change the emitted stream. -/

/-- C9 counterexample: after three accumulated 0-bits, writing value 4 with
`n = 1` emits the byte 0x40 while writing `4 mod 2^1 = 0` emits 0x00 — the
emitted sequence depends on the bits of the value above position `n`. -/
theorem c9_counterexample :
    (flush (write_bits (write_bits ⟨[], 0, 0⟩ 0 3) 4 1)).out = [64] ∧
      (flush (write_bits (write_bits ⟨[], 0, 0⟩ 0 3) (4 % 2 ^ 1) 1)).out = [0] ∧
      ([64] : List Nat) ≠ [0] :=
  ⟨rfl, rfl, by decide⟩

theorem out_val_append_one (out : List Nat) (b : Nat) :
    out_val (out ++ [b]) = out_val out * 256 + b := by
  simp [out_val, List.foldl_append]

theorem mod_mul_split (x a b : Nat) : x % (a * b) = a * (x / a % b) + x % a := by
  rcases Nat.eq_zero_or_pos a with ha | ha
  · subst ha; simp
  rcases Nat.eq_zero_or_pos b with hb | hb
  · subst hb
    simp only [Nat.mul_zero, Nat.mod_zero]
    exact (Nat.div_add_mod x a).symm
  have hsplit : x = a * (x / a) + x % a := (Nat.div_add_mod x a).symm
  conv_lhs => rw [hsplit]
  rw [Nat.add_mod, Nat.mul_mod_mul_left]
  have hxa : x % a < a := Nat.mod_lt _ ha
  have hq : x / a % b < b := Nat.mod_lt _ hb
  have hlt : a * (x / a % b) + x % a % (a * b) < a * b := by
    have h1 : x % a % (a * b) = x % a :=
      Nat.mod_eq_of_lt (lt_of_lt_of_le hxa (Nat.le_mul_of_pos_right a hb))
    rw [h1]
    calc a * (x / a % b) + x % a < a * (x / a % b) + a := by omega
      _ = a * (x / a % b + 1) := by ring
      _ ≤ a * b := Nat.mul_le_mul_left a (by omega)
  rw [Nat.mod_eq_of_lt hlt]
  congr 1
  exact Nat.mod_eq_of_lt (lt_of_lt_of_le hxa (Nat.le_mul_of_pos_right a hb))

theorem shl_or_eq (a v n : Nat) (hv : v < 2 ^ n) : a <<< n ||| v = a * 2 ^ n + v := by
  rw [Nat.shiftLeft_eq, Nat.mul_comm a (2 ^ n), ← Nat.mul_add_lt_is_or hv a,
    Nat.mul_comm (2 ^ n) a]

theorem emit_aux_spec :
    ∀ fuel out buffer size, size ≤ fuel →
      out_val (emit_aux fuel out buffer size).1 * 2 ^ (emit_aux fuel out buffer size).2 +
          buffer % 2 ^ (emit_aux fuel out buffer size).2 =
        out_val out * 2 ^ size + buffer % 2 ^ size ∧
      (emit_aux fuel out buffer size).1.length * 8 + (emit_aux fuel out buffer size).2 =
        out.length * 8 + size ∧
      (emit_aux fuel out buffer size).2 < 8 := by
  intro fuel
  induction fuel with
  | zero =>
    intro out buffer size hle
    obtain rfl : size = 0 := by omega
    rw [emit_aux]
    exact ⟨rfl, rfl, by omega⟩
  | succ fuel ih =>
    intro out buffer size hle
    rw [emit_aux]
    by_cases hsz : 8 ≤ size
    · rw [if_pos hsz]
      obtain ⟨k, rfl⟩ : ∃ k, size = k + 8 := ⟨size - 8, by omega⟩
      have hk : k + 8 - 8 = k := by omega
      rw [hk]
      obtain ⟨ih1, ih2, ih3⟩ :=
        ih (out ++ [buffer >>> k &&& 255]) buffer k (by omega)
      refine ⟨?_, ?_, ih3⟩
      · rw [ih1, out_val_append_one]
        have h255 : (255 : Nat) = 2 ^ 8 - 1 := by norm_num
        rw [Nat.shiftRight_eq_div_pow, h255, Nat.and_pow_two_sub_one_eq_mod]
        have hpow : (2 : Nat) ^ (k + 8) = 2 ^ k * 2 ^ 8 := by rw [pow_add]
        rw [hpow, mod_mul_split buffer (2 ^ k) (2 ^ 8)]
        have h256 : (2 : Nat) ^ 8 = 256 := by norm_num
        rw [h256]
        ring
      · rw [ih2]
        simp only [List.length_append, List.length_singleton]
        omega
    · rw [if_neg hsz]
      exact ⟨rfl, rfl, by omega⟩

/-- C9 (amended): provided `value < 2^n`, `write_bits` appends exactly the
`n`-bit MSB-first representation of `value` to the accumulated bit string
(emitted bytes plus pending bits): the accumulated bit count grows by `n`
and the accumulated value `v` becomes `v * 2^n + value`.  (For
`value ≥ 2^n` this fails — see the counterexample.) -/
theorem c9_write_bits_appends (w : BitWriter) (value n : Nat) (hv : value < 2 ^ n) :
    writer_val (write_bits w value n) = writer_val w * 2 ^ n + value ∧
      writer_len (write_bits w value n) = writer_len w + n := by
  have hbuf : w.buffer <<< n ||| value = w.buffer * 2 ^ n + value := shl_or_eq _ _ _ hv
  obtain ⟨h1, h2, _⟩ :=
    emit_aux_spec (w.bufferSize + n) w.out (w.buffer <<< n ||| value)
      (w.bufferSize + n) (le_refl _)
  constructor
  · show out_val (emit_aux _ _ _ _).1 * 2 ^ (emit_aux _ _ _ _).2 +
      (w.buffer <<< n ||| value) % 2 ^ (emit_aux _ _ _ _).2 = _
    rw [h1, hbuf]
    have hpow : (2 : Nat) ^ (w.bufferSize + n) = 2 ^ n * 2 ^ w.bufferSize := by
      rw [← pow_add, Nat.add_comm]
    rw [hpow, mod_mul_split (w.buffer * 2 ^ n + value) (2 ^ n) (2 ^ w.bufferSize)]
    have hdiv : (w.buffer * 2 ^ n + value) / 2 ^ n = w.buffer := by
      rw [Nat.mul_comm w.buffer (2 ^ n), Nat.mul_add_div (Nat.two_pow_pos n),
        Nat.div_eq_of_lt hv, Nat.add_zero]
    have hmod : (w.buffer * 2 ^ n + value) % 2 ^ n = value := by
      rw [Nat.mul_comm w.buffer (2 ^ n), Nat.mul_add_mod, Nat.mod_eq_of_lt hv]
    rw [hdiv, hmod, writer_val]
    ring
  · show (emit_aux _ _ _ _).1.length * 8 + (emit_aux _ _ _ _).2 = _
    rw [h2, writer_len]
    omega

/-- C9 witness: the amended statement at a concrete in-range write. -/
theorem c9_witness :
    writer_val (write_bits ⟨[], 0, 0⟩ 5 3) = writer_val ⟨[], 0, 0⟩ * 2 ^ 3 + 5 ∧
      writer_len (write_bits ⟨[], 0, 0⟩ 5 3) = writer_len ⟨[], 0, 0⟩ + 3 :=
  c9_write_bits_appends ⟨[], 0, 0⟩ 5 3 (by decide)

/-! ## C10 — get_bit_length and the isolated-zero literal path -/

theorem bit_len_aux_zero : ∀ fuel, bit_len_aux fuel 0 = 0 := by
  intro fuel; cases fuel <;> rfl

theorem bit_len_aux_spec :
    ∀ fuel v, 1 ≤ v → v ≤ fuel →
      1 ≤ bit_len_aux fuel v ∧ 2 ^ (bit_len_aux fuel v - 1) ≤ v ∧
        v < 2 ^ bit_len_aux fuel v := by
  intro fuel
  induction fuel with
  | zero => intro v h1 h2; omega
  | succ fuel ih =>
    intro v h1 h2
    obtain ⟨w, rfl⟩ : ∃ w, v = w + 1 := ⟨v - 1, by omega⟩
    rw [bit_len_aux]
    by_cases hv2 : 2 ≤ w + 1
    · obtain ⟨ih1, ih2, ih3⟩ := ih ((w + 1) / 2) (by omega) (by omega)
      obtain ⟨u, hu⟩ : ∃ u, bit_len_aux fuel ((w + 1) / 2) = u + 1 :=
        ⟨bit_len_aux fuel ((w + 1) / 2) - 1, by omega⟩
      rw [hu] at ih2 ih3
      rw [hu]
      simp only [Nat.add_sub_cancel] at ih2 ⊢
      have hp1 : (2 : Nat) ^ (u + 1) = 2 ^ u * 2 := pow_succ 2 u
      have hp2 : (2 : Nat) ^ (u + 1 + 1) = 2 ^ (u + 1) * 2 := pow_succ 2 (u + 1)
      refine ⟨by omega, by omega, by omega⟩
    · obtain rfl : w = 0 := by omega
      norm_num [bit_len_aux_zero]

theorem get_bit_length_log2 (v : Nat) (hv : 1 ≤ v) :
    get_bit_length v = (Nat.log2 v : Int) := by
  obtain ⟨h1, h2, h3⟩ := bit_len_aux_spec v v hv (le_refl v)
  have hne : v ≠ 0 := by omega
  have hle : bit_len_aux v v - 1 ≤ Nat.log2 v := (Nat.le_log2 hne).mpr h2
  have hlt : Nat.log2 v < bit_len_aux v v := (Nat.log2_lt hne).mpr h3
  rw [get_bit_length]
  omega

theorem run_len_spec (v : Nat) :
    ∀ l cap j, j < run_len v l cap → l.get? j = some v := by
  intro l
  induction l with
  | nil => intro cap j h; rw [run_len] at h; omega
  | cons x xs ih =>
    intro cap j h
    cases cap with
    | zero => rw [run_len] at h; omega
    | succ cap =>
      rw [run_len] at h
      by_cases hx : x = v
      · rw [if_pos hx] at h
        cases j with
        | zero => simp [hx]
        | succ j => exact ih cap j (by omega)
      · rw [if_neg hx] at h; omega

theorem isolated_zero_cons (x : Nat) (xs : List Nat) (i : Nat)
    (h : isolated_zero (x :: xs) (i + 1)) : isolated_zero xs i := by
  obtain ⟨h1, h2, h3⟩ := h
  simp only [Nat.add_sub_cancel, List.get?_cons_succ] at h1 h2 h3
  refine ⟨h1, ?_, h3⟩
  rcases h2 with h2 | h2
  · omega
  cases i with
  | zero => exact Or.inl rfl
  | succ j =>
    refine Or.inr ?_
    simp only [Nat.add_sub_cancel]
    simpa using h2

theorem isolated_zero_drop :
    ∀ k l i, isolated_zero l (k + i) → isolated_zero (List.drop k l) i := by
  intro k
  induction k with
  | zero => intro l i h; simpa using h
  | succ k ih =>
    intro l i h
    cases l with
    | nil =>
      exfalso
      obtain ⟨h1, -, -⟩ := h
      simp at h1
    | cons x xs =>
      rw [List.drop_succ_cons]
      refine ih xs i (isolated_zero_cons x xs (k + i) ?_)
      rwa [show k + i + 1 = k + 1 + i by omega]

theorem write_line_calls_aux_isolated :
    ∀ fuel l, l.length ≤ fuel → ∀ i, isolated_zero l i →
      ((-1 : Int), 3) ∈ write_line_calls_aux fuel l := by
  intro fuel
  induction fuel with
  | zero =>
    intro l hl i h
    obtain rfl : l = [] := List.eq_nil_of_length_eq_zero (by omega)
    obtain ⟨h1, -, -⟩ := h
    simp at h1
  | succ fuel ih =>
    intro l hl i h
    cases l with
    | nil =>
      obtain ⟨h1, -, -⟩ := h
      simp at h1
    | cons x xs =>
      rw [write_line_calls_aux]
      by_cases hc : 1 < 1 + run_len x xs 254
      · rw [if_pos hc]
        have hval : ∀ j, j < 1 + run_len x xs 254 → (x :: xs).get? j = some x := by
          intro j hj
          cases j with
          | zero => rfl
          | succ j => exact run_len_spec x xs 254 j (by omega)
        by_cases hi : i < 1 + run_len x xs 254
        · exfalso
          obtain ⟨h1, h2, h3⟩ := h
          have hx0 : x = 0 := by
            have hv := hval i hi
            rw [h1] at hv
            exact (Option.some.inj hv).symm
          cases i with
          | zero =>
            refine h3 ?_
            rw [hval 1 (by omega), hx0]
          | succ j =>
            rcases h2 with h2 | h2
            · omega
            refine h2 ?_
            rw [show j + 1 - 1 = j from rfl, hval j (by omega), hx0]
        · have h2 : isolated_zero (List.drop (run_len x xs 254) xs)
              (i - (1 + run_len x xs 254)) := by
            have hdrop : List.drop (1 + run_len x xs 254) (x :: xs) =
                List.drop (run_len x xs 254) xs := by
              rw [Nat.add_comm, List.drop_succ_cons]
            rw [← hdrop]
            refine isolated_zero_drop _ _ _ ?_
            rwa [show 1 + run_len x xs 254 + (i - (1 + run_len x xs 254)) = i by omega]
          simp only [Nat.add_sub_cancel_left]
          refine List.mem_cons_of_mem _ (List.mem_append_right _ ?_)
          refine ih _ ?_ _ h2
          simp only [List.length_drop]
          simp only [List.length_cons] at hl
          omega
      · rw [if_neg hc]
        cases i with
        | zero =>
          obtain ⟨h1, -, -⟩ := h
          have hx : x = 0 := by simpa using h1
          subst hx
          have hg : get_bit_length 0 = -1 := by decide
          rw [hg]
          exact List.mem_cons_self _ _
        | succ j =>
          have h' := isolated_zero_cons x xs j h
          refine List.mem_cons_of_mem _ (List.mem_cons_of_mem _ (ih xs ?_ j h'))
          simp only [List.length_cons] at hl
          omega

/-- C10: `get_bit_length` returns `-1` for 0 and `⌊log2 v⌋` for `v ≥ 1`;
for every scanline whose delta-symbol array has a zero symbol whose run of
identical consecutive symbols has length exactly 1, the literal
path of the encoder calls `write_bits(-1, 3)` — a width code outside what a 3-bit read
can produce — so only scanlines without an isolated zero symbol can have
all their `write_bits` calls well-formed (non-negative). -/
theorem c10_encoder_isolated_zero :
    get_bit_length 0 = -1 ∧
    (∀ v : Nat, 1 ≤ v → get_bit_length v = (Nat.log2 v : Int)) ∧
    (∀ line i, isolated_zero line i → ((-1 : Int), 3) ∈ write_line_calls line) ∧
    (∀ line : List Nat, (∀ ev ∈ write_line_calls line, 0 ≤ ev.1) →
      ∀ i, ¬isolated_zero line i) := by
  refine ⟨by decide, fun v hv => get_bit_length_log2 v hv, ?_, ?_⟩
  · intro line i h
    exact write_line_calls_aux_isolated line.length line (le_refl _) i h
  · intro line hwf i hiso
    have hmem := write_line_calls_aux_isolated line.length line (le_refl _) i hiso
    have h0 := hwf _ hmem
    norm_num at h0

/-- C10 witness: the membership statement at the one-element scanline `[0]`,
whose single zero symbol is an isolated run of length 1. -/
theorem c10_witness : ((-1 : Int), 3) ∈ write_line_calls [0] :=
  c10_encoder_isolated_zero.2.2.1 [0] 0 ⟨rfl, Or.inl rfl, by decide⟩
